import Mathlib

/-!
Shallow embedding of the `polynomial-generator` repository (files
`src/polynomial_generator/chooser.py` and
`src/polynomial_generator/instance_generator.py`).

Modelling conventions.

Python ints become `ℤ` (counts and list indices become `ℕ` where the source
value is provably a count), floats become `ℚ`, numpy integer matrices become
`List (List ℤ)` (row major, rectangular by hypothesis), and every raised
`ValueError` becomes a constructor of `PyError` (one constructor per raise
site).  The pseudo random sources (the `random` module and `numpy.random`,
one global state each) are modelled as explicit streams of unit-interval
draws: a carrier function `ℕ → ℚ` plus a position, where reading a draw
clamps the carried value into `[0, 1)` — `random.random()` guarantees its
output lies in `[0, 1)` whatever the hidden state is, and the clamp models
exactly that library contract for arbitrary carrier functions.  Seeding
(`random.seed(s)` / `np.random.seed(s)`) replaces a stream by `seedFn s`
at position 0, where the seed-to-stream maps are parameters of the
embedding: nothing in this repository constrains the seed derivation, only
that it is a function of the seed.  `random.seed` accepts any integer;
numpy's legacy `np.random.seed` raises `ValueError` for a seed at or
above `2^32`, which the seeding step models as an explicit error.

Library calls are modelled one draw per sampled scalar, faithful to their
documented output contracts rather than to their bit-level implementation:
`random.randint(a, b)` yields `a + ⌊u(b-a+1)⌋ ∈ [a, b]`;
`random.uniform(a, b)` yields `a + (b-a)u`; `np.random.choice(n, k)` yields
`k` indices `⌊u·n⌋ ∈ [0, n)` and raises when `n = 0`;
`np.random.dirichlet(α)` over `k` parts consumes `k` draws and returns a
strictly positive vector summing to 1 (here: the draws made positive and
normalised — the concentration parameter shapes the distribution, not the
support, and only the support matters for the properties proved below);
`np.round` is round-half-to-even.  The sympy rendering of the final
polynomial is outside the generator core and carries no information beyond
the matrix and the coefficients, so the returned instance record omits it.
-/

namespace PolyGen

/-- Stream of unit-interval draws: a carrier function and the position of the
next draw.  Reading clamps into `[0, 1)`, the contract of `random.random()`. -/
structure RandStream where
  gen : ℕ → ℚ
  pos : ℕ

/-- Clamp of a carrier value into `[0, 1)`, the range every concrete Python
draw is guaranteed to lie in. -/
def clamp01 (u : ℚ) : ℚ := if 0 ≤ u ∧ u < 1 then u else 0

/-- Draw one value from a stream. -/
def RandStream.next (s : RandStream) : ℚ × RandStream :=
  (clamp01 (s.gen s.pos), ⟨s.gen, s.pos + 1⟩)

/-- Draw `k` values from a stream, in order. -/
def RandStream.take (s : RandStream) : ℕ → List ℚ × RandStream
  | 0 => ([], s)
  | k + 1 =>
    let p := s.next
    let r := p.2.take k
    (p.1 :: r.1, r.2)

/-- Global random state of the process: the `random` module stream and the
`numpy.random` stream. -/
structure PyState where
  py : RandStream
  np : RandStream

/-- Model of `random.randint(a, b)` applied to one unit draw. -/
def randint (a b : ℤ) (u : ℚ) : ℤ := a + ⌊u * ((b : ℚ) - (a : ℚ) + 1)⌋

/-- Model of `random.uniform(a, b)` applied to one unit draw. -/
def pyUniform (a b : ℚ) (u : ℚ) : ℚ := a + (b - a) * u

/-- Model of one index sampled by `np.random.choice(n, ...)`. -/
def npChoice (n : ℕ) (u : ℚ) : ℕ := (⌊u * (n : ℚ)⌋).toNat

/-- Positive representative of a raw draw, used to model the strictly
positive gamma variates underlying `np.random.dirichlet`. -/
def posify (u : ℚ) : ℚ := if 0 < u then u else 1

/-- Model of `np.random.dirichlet` over `us.length` parts: a strictly
positive vector summing to 1, reachable at any interior rational point. -/
def npDirichlet (us : List ℚ) : List ℚ :=
  (us.map posify).map (fun d => d / (us.map posify).sum)

/-- Model of `np.round` on a rational: round half to even, as numpy does. -/
def npRound (x : ℚ) : ℤ :=
  if x - (⌊x⌋ : ℚ) < 1 / 2 then ⌊x⌋
  else if 1 / 2 < x - (⌊x⌋ : ℚ) then ⌊x⌋ + 1
  else if ⌊x⌋ % 2 = 0 then ⌊x⌋ else ⌊x⌋ + 1

/-- Model of `int(math.sqrt(n))` for a natural `n`: the integer square root,
written as a structurally evaluable fold. -/
def intSqrt (n : ℕ) : ℕ :=
  (List.range (n + 1)).foldl (fun acc k => if k * k ≤ n then k else acc) 0

/-- Errors raised by the generator, one constructor per `raise` site:
`invalidDelta` for `Delta must be positive` (raised both by `choose_m_n` and
by `generate_random_instance`), `invalidRange` for
`Coefficient range must allow nonzero values`, `infeasibleRowTotals` for
`Cannot distribute target_sum across m monomials`, `numpyChoiceEmpty`
for the `ValueError` numpy itself raises when `np.random.choice` is asked
to sample from an empty support, and `invalidSeed` for the `ValueError`
(`Seed must be between 0 and 2**32 - 1`) that `np.random.seed` raises for
a seed outside `[0, 2^32)`. -/
inductive PyError where
  | invalidDelta : PyError
  | invalidRange : PyError
  | infeasibleRowTotals : PyError
  | numpyChoiceEmpty : PyError
  | invalidSeed : PyError
deriving DecidableEq

/-- Embedding of `chooser.choose_m_n`.  `pySeed` is the seed-to-stream map
of the `random` module; a supplied seed re-seeds that module exactly as
`random.seed(seed)` does, and the two `random.randint` calls then consume
two draws in order. -/
def choose_m_n (pySeed : ℕ → ℕ → ℚ) (delta : ℤ) (seed : Option ℕ)
    (st : PyState) : Except PyError ((ℤ × ℤ) × PyState) :=
  if delta ≤ 0 then .error .invalidDelta
  else
    let st1 : PyState :=
      match seed with
      | some s => { st with py := ⟨pySeed s, 0⟩ }
      | none => st
    let max_m : ℤ := min delta ((intSqrt delta.toNat : ℤ) + 5)
    let d1 := st1.py.next
    let m := randint 1 max_m d1.1
    let max_n : ℤ := max (min delta (min (m + 3) 10)) 2
    let d2 := d1.2.next
    let n := randint 2 max_n d2.1
    .ok ((m, n), { st1 with py := d2.2 })

/-- Embedding of `_sample_row_totals`.  `m` is a count (always the `m` of
`choose_m_n`, which is at least 1, in the only caller).  Consumes `m`
numpy draws for the Dirichlet proportions and, when rounding left a
nonzero drift, one further draw per unit of drift for
`np.random.choice(m, abs(diff))`; numpy raises when `m = 0` there.  The
adjustment loop increments (or decrements, without any positivity guard)
the chosen entries. -/
def sample_row_totals (m : ℕ) (target_sum : ℤ) (np : RandStream) :
    Except PyError (List ℤ × RandStream) :=
  if target_sum < (m : ℤ) then .error .infeasibleRowTotals
  else
    let remaining : ℤ := target_sum - (m : ℤ)
    if remaining = 0 then .ok (List.replicate m 1, np)
    else
      let t := np.take m
      let props := npDirichlet t.1
      let extras := props.map (fun p => npRound (p * (remaining : ℚ)))
      let diff := remaining - extras.sum
      if diff = 0 then .ok (extras.map (fun e => 1 + e), t.2)
      else if m = 0 then .error .numpyChoiceEmpty
      else
        let v := t.2.take diff.natAbs
        let idxs := v.1.map (npChoice m)
        let extras2 := idxs.foldl
          (fun e idx => e.set idx (e.getD idx 0 + if 0 < diff then 1 else -1))
          extras
        .ok (extras2.map (fun e => 1 + e), v.2)

/-- Adjustment loop of `_distribute_exponents`: walk the pre-drawn index
list; when the drift was positive increment the entry at each index, when
it was negative decrement it if positive, otherwise decrement a positive
entry chosen by one further `np.random.choice` draw over the positive
positions (doing nothing when there is none). -/
def fixupExponents (diffPos : Bool) (n : ℕ) :
    List ℕ → List ℤ → RandStream → List ℤ × RandStream
  | [], exps, np => (exps, np)
  | idx :: rest, exps, np =>
    if diffPos then
      fixupExponents diffPos n rest (exps.set idx (exps.getD idx 0 + 1)) np
    else if 0 < exps.getD idx 0 then
      fixupExponents diffPos n rest (exps.set idx (exps.getD idx 0 - 1)) np
    else
      let pos := (List.range n).filter (fun j => 0 < exps.getD j 0)
      if pos.isEmpty then fixupExponents diffPos n rest exps np
      else
        let d := np.next
        let j := pos.getD (npChoice pos.length d.1) 0
        fixupExponents diffPos n rest (exps.set j (exps.getD j 0 - 1)) d.2

/-- Embedding of `_distribute_exponents`: zero total degree yields the zero
vector; otherwise round Dirichlet shares of the total and repair the
rounding drift with `fixupExponents`. -/
def distribute_exponents (total_degree : ℤ) (n_variables : ℕ)
    (np : RandStream) : List ℤ × RandStream :=
  if total_degree = 0 then (List.replicate n_variables 0, np)
  else
    let t := np.take n_variables
    let props := npDirichlet t.1
    let exps := props.map (fun p => npRound (p * (total_degree : ℚ)))
    let diff := total_degree - exps.sum
    if diff = 0 then (exps, t.2)
    else
      let v := t.2.take diff.natAbs
      let idxs := v.1.map (npChoice n_variables)
      fixupExponents (decide (0 < diff)) n_variables idxs exps v.2

/-- Embedding of `_calculate_baseline`: the sum over rows of
`max(0, rowSum - 1)`. -/
def calculate_baseline (matrix : List (List ℤ)) : ℤ :=
  (matrix.map (fun row => max 0 (row.sum - 1))).sum

/-- Row assembly loop of `generate_random_instance` step 3: one
`_distribute_exponents` call per row total, threading the numpy stream. -/
def buildRows : List ℤ → ℕ → RandStream → List (List ℤ) × RandStream
  | [], _, np => ([], np)
  | t :: ts, n, np =>
    let r := distribute_exponents t n np
    let rest := buildRows ts n r.2
    (r.1 :: rest.1, rest.2)

/-- Embedding of the local `_move_unit` helper of
`_enforce_matrix_constraints`: move one unit from column `p` to column `q`
of a row, a no-op when `p = q` or the donor entry is not positive. -/
def _move_unit (row : List ℤ) (p q : ℕ) : List ℤ :=
  if p = q then row
  else if row.getD p 0 ≤ 0 then row
  else (row.set p (row.getD p 0 - 1)).set q (row.getD q 0 + 1)

/-- Unguarded single-unit transfer used by the zero-column passes of the
source (`cand[p] -= 1; cand[j] += 1`), which validate the donor before
building the candidate instead of guarding inside. -/
def shiftUnit (row : List ℤ) (p j : ℕ) : List ℤ :=
  (row.set p (row.getD p 0 - 1)).set j (row.getD j 0 + 1)

/-- Column sums of a row-major matrix (`matrix.sum(axis=0)`), one entry per
column index below `n`. -/
def colSumsOf (matrix : List (List ℤ)) (n : ℕ) : List ℤ :=
  (List.range n).map (fun j => (matrix.map (fun row => row.getD j 0)).sum)

/-- Model of `np.argmin`: the first index attaining the minimum. -/
def argmin (l : List ℤ) : ℕ :=
  (List.range l.length).foldl
    (fun best j => if l.getD j 0 < l.getD best 0 then j else best) 0

/-- Indices of the all-zero columns, in increasing order
(`np.where(col_sums == 0)[0]`). -/
def zeroColsOf (cols : List ℤ) : List ℕ :=
  (List.range cols.length).filter (fun j => cols.getD j 0 = 0)

/-- Donor columns of a row: positive entries at an index other than `q`,
in increasing index order, as the source list comprehension builds them. -/
def donorsOf (row : List ℤ) (q : ℕ) : List ℕ :=
  (List.range row.length).filter (fun p => 0 < row.getD p 0 ∧ p ≠ q)

/-- Occurrence count of a row pattern in the multiset of current rows; the
source keeps the same counts in a `Counter`. -/
def seenCount (seen : List (List ℤ)) (row : List ℤ) : ℕ := seen.count row

/-- Stable descending insertion by key, matching
`list.sort(key=..., reverse=True)`: an element moves left past strictly
smaller keys only, so equal keys keep their original order. -/
def insertDescBy (key : ℕ → ℤ) (x : ℕ) : List ℕ → List ℕ
  | [] => [x]
  | y :: ys => if key y ≤ key x then x :: y :: ys else y :: insertDescBy key x ys

/-- Stable descending sort by key (see `insertDescBy`). -/
def sortDescBy (key : ℕ → ℤ) : List ℕ → List ℕ
  | [] => []
  | x :: xs => insertDescBy key x (sortDescBy key xs)

/-- Duplicate-breaking attempt loop of `_enforce_matrix_constraints`.
During the `while attempts < 100` loop nothing but the attempt counter
changes between failed candidate checks, so the loop is a pure search: at
attempt `t` the target column `q` cycles through the zero columns (or is
the first least-covered column when there is none), the donor is the first
positive column other than `q`, and the first candidate row pattern not
yet present is accepted.  Returns the accepted `(p, q)` or `none` when the
donor list comes up empty (the `break`) or the 100 attempts run out. -/
def dupAttempts (row : List ℤ) (seen : List (List ℤ)) (cols : List ℤ)
    (zc : List ℕ) : ℕ → ℕ → Option (ℕ × ℕ)
  | _, 0 => none
  | t, fuel + 1 =>
    let q := if zc.isEmpty then argmin cols else zc.getD (t % zc.length) 0
    match donorsOf row q with
    | [] => none
    | p :: _ =>
      if seenCount seen (_move_unit row p q) = 0 then some (p, q)
      else dupAttempts row seen cols zc (t + 1) fuel

/-- Exhaustive deterministic fallback scan of the duplicate breaker: first
`(p, q)` in lexicographic order with a nonzero donor entry, `q ≠ p`, whose
single-unit move yields an unseen pattern. -/
def dupExhaustive (row : List ℤ) (seen : List (List ℤ)) (n : ℕ) :
    Option (ℕ × ℕ) :=
  (List.range n).findSome? (fun p =>
    if row.getD p 0 = 0 then none
    else (List.range n).findSome? (fun q =>
      if q = p then none
      else if seenCount seen (_move_unit row p q) = 0 then some (p, q)
      else none))

/-- State threaded through `_enforce_matrix_constraints`: the matrix, the
multiset of current row patterns (the `Counter`), and the maintained
per-column sums. -/
structure RepairState where
  matrix : List (List ℤ)
  seen : List (List ℤ)
  cols : List ℤ

/-- Bookkeeping common to every accepted move on row `i`: store the new
row, trade the old pattern for the new one in the multiset, and shift one
unit of column mass from `p` to `q`. -/
def applyMove (st : RepairState) (i : ℕ) (oldRow newRow : List ℤ)
    (p q : ℕ) : RepairState :=
  { matrix := st.matrix.set i newRow
    seen := newRow :: st.seen.erase oldRow
    cols := (st.cols.set p (st.cols.getD p 0 - 1)).set q (st.cols.getD q 0 + 1) }

/-- Duplicate-breaking pass for row `i`: skip unique rows, otherwise run
the attempt loop and then the exhaustive scan, leaving the row unchanged
when neither finds a uniqueness-restoring move. -/
def breakDupRow (n : ℕ) (st : RepairState) (i : ℕ) : RepairState :=
  let row := st.matrix.getD i []
  if seenCount st.seen row ≤ 1 then st
  else
    match dupAttempts row st.seen st.cols (zeroColsOf st.cols) 0 100 with
    | some pq => applyMove st i row (_move_unit row pq.1 pq.2) pq.1 pq.2
    | none =>
      match dupExhaustive row st.seen n with
      | some pq => applyMove st i row (_move_unit row pq.1 pq.2) pq.1 pq.2
      | none => st

/-- First zero-column pass of the source for column `j`: scan rows in
order; within a row try the donors sorted by decreasing entry (stable), and
accept the first candidate whose pattern is unseen.  Returns the row index,
the donor and the candidate row. -/
def zeroColFirst (matrix : List (List ℤ)) (seen : List (List ℤ)) (j : ℕ) :
    List ℕ → Option (ℕ × ℕ × List ℤ)
  | [] => none
  | i :: rest =>
    let row := matrix.getD i []
    let donors := sortDescBy (fun p => row.getD p 0) (donorsOf row j)
    match donors.findSome? (fun p =>
      if seenCount seen (shiftUnit row p j) = 0 then some (p, shiftUnit row p j)
      else none) with
    | some pc => some (i, pc.1, pc.2)
    | none => zeroColFirst matrix seen j rest

/-- Second zero-column pass for column `j`: take the first row with any
donor, perform the move unconditionally, and if that created a duplicate
pattern attempt one corrective move from the first donor of the new row to
the least-covered column other than `j`, accepted only when it yields an
unseen pattern; then stop. -/
def zeroColSecond (n j : ℕ) (st : RepairState) : List ℕ → RepairState
  | [] => st
  | i :: rest =>
    let row := st.matrix.getD i []
    match donorsOf row j with
    | [] => zeroColSecond n j st rest
    | p :: _ =>
      let r1 := shiftUnit row p j
      let st1 : RepairState :=
        { matrix := st.matrix.set i r1
          seen := r1 :: st.seen.erase row
          cols := (st.cols.set p (st.cols.getD p 0 - 1)).set j
            (st.cols.getD j 0 + 1) }
      if 1 < seenCount st1.seen r1 then
        match donorsOf r1 j with
        | [] => st1
        | p2 :: _ =>
          match (List.range n).filter (fun q => q ≠ j) with
          | [] => st1
          | q0 :: qrest =>
            let q2 := (q0 :: qrest).foldl
              (fun best q =>
                if st1.cols.getD q 0 < st1.cols.getD best 0 then q else best) q0
            let cand2 := _move_unit r1 p2 q2
            if seenCount st1.seen cand2 = 0 then
              { matrix := st1.matrix.set i cand2
                seen := cand2 :: st1.seen.erase r1
                cols := (st1.cols.set p2 (st1.cols.getD p2 0 - 1)).set q2
                  (st1.cols.getD q2 0 + 1) }
            else st1
      else st1

/-- Zero-column fix for column `j`: the duplicate-avoiding first pass,
falling back to the unconditional second pass. -/
def fixZeroCol (n : ℕ) (st : RepairState) (j : ℕ) : RepairState :=
  match zeroColFirst st.matrix st.seen j (List.range st.matrix.length) with
  | some ipc =>
    applyMove st ipc.1 (st.matrix.getD ipc.1 []) ipc.2.2 ipc.2.1 j
  | none => zeroColSecond n j st (List.range st.matrix.length)

/-- Embedding of `_enforce_matrix_constraints`: break duplicate rows in
row order, then fix the columns that are entirely zero at that point, the
pattern multiset being rebuilt from the current matrix between the two
phases exactly as the source rebuilds its `Counter`. -/
def enforce_matrix_constraints (matrix : List (List ℤ)) : List (List ℤ) :=
  let m := matrix.length
  let n := (matrix.headD []).length
  if m = 0 ∨ n = 0 then matrix
  else
    let st0 : RepairState := ⟨matrix, matrix, colSumsOf matrix n⟩
    let st1 := (List.range m).foldl (fun st i => breakDupRow n st i) st0
    let cols := colSumsOf st1.matrix n
    let st2 : RepairState := ⟨st1.matrix, st1.matrix, cols⟩
    ((zeroColsOf cols).foldl (fun st j => fixZeroCol n st j) st2).matrix

/-- Coefficient resampling loop (`while coeff == 0`), with explicit fuel in
place of the unbounded source loop: `none` models the run in which the
loop has not terminated within the fuel, which is not an error. -/
def genCoeff (lo hi : ℚ) (py : RandStream) : ℕ → Option (ℚ × RandStream)
  | 0 => none
  | fuel + 1 =>
    let d := py.next
    let c := pyUniform lo hi d.1
    if c = 0 then genCoeff lo hi d.2 fuel else some (c, d.2)

/-- Coefficient generation loop of step 4: `k` nonzero draws in order. -/
def genCoeffs (lo hi : ℚ) (py : RandStream) : ℕ → Option (List ℚ × RandStream)
  | 0 => some ([], py)
  | k + 1 =>
    match genCoeff lo hi py 100 with
    | none => none
    | some cp =>
      match genCoeffs lo hi cp.2 k with
      | none => none
      | some rest => some (cp.1 :: rest.1, rest.2)

/-- Result record of one generation call: the `dict` the source returns,
minus the sympy rendering (a pure function of `matrix` and
`coefficients`, outside the generator core). -/
structure PolyInstance where
  delta : ℤ
  m : ℤ
  n : ℤ
  matrix : List (List ℤ)
  coefficients : List ℚ
  baseline : ℤ
deriving DecidableEq

/-- Seeding step of `generate_random_instance`: `random.seed(seed)` and
`np.random.seed(seed)` replace both global streams when a seed is given,
and leave the incoming state alone otherwise.  `random.seed` accepts any
integer, but numpy's legacy `np.random.seed` raises `ValueError` for a
seed at or above `2^32`; the step is therefore fallible.  (When it
raises, `random.seed` has already run, but the exception propagates out
of `generate_random_instance`, so that mutation is unobservable in the
returned value.) -/
def seedStreams (pySeed npSeed : ℕ → ℕ → ℚ) (seed : Option ℕ)
    (g : PyState) : Except PyError PyState :=
  match seed with
  | some s =>
    if s < 2 ^ 32 then .ok { py := ⟨pySeed s, 0⟩, np := ⟨npSeed s, 0⟩ }
    else .error .invalidSeed
  | none => .ok g

/-- Embedding of `generate_random_instance`.  Validation happens before any
randomness; a supplied seed then replaces both global streams by their
seeded versions (and `choose_m_n`, receiving the same seed, re-seeds the
`random` module again, which the embedding reproduces); the pipeline then
runs sizes, row totals, per-row exponents, constraint repair and
coefficients in the fixed source order.  The outer `Option` distinguishes
the run in which the coefficient loop exceeded the model fuel (`none`,
the source would still be looping) from a returned instance. -/
def generate_random_instance (pySeed npSeed : ℕ → ℕ → ℚ) (delta : ℤ)
    (lo hi : ℚ) (seed : Option ℕ) (g : PyState) :
    Except PyError (Option PolyInstance) :=
  if delta ≤ 0 then .error .invalidDelta
  else if 0 ≤ lo ∧ hi ≤ 0 then .error .invalidRange
  else
    match seedStreams pySeed npSeed seed g with
    | .error e => .error e
    | .ok g1 =>
      match choose_m_n pySeed delta seed g1 with
      | .error e => .error e
      | .ok mng =>
        match sample_row_totals mng.1.1.toNat (delta + mng.1.1) mng.2.np with
        | .error e => .error e
        | .ok rtnp =>
          let rows := buildRows rtnp.1 mng.1.2.toNat rtnp.2
          let matrix := enforce_matrix_constraints rows.1
          match genCoeffs lo hi mng.2.py mng.1.1.toNat with
          | none => .ok none
          | some cs =>
            .ok (some
              { delta := delta
                m := mng.1.1
                n := mng.1.2
                matrix := matrix
                coefficients := cs.1
                baseline := calculate_baseline matrix })

/-- Carrier values of the `random` module stream for the baseline-miss run:
`m`-draw, `n`-draw, then four coefficient draws. -/
def pyListC1 : List ℚ := [4/5, 0, 3/4, 3/4, 3/4, 3/4]

/-- Carrier values of the numpy stream for the baseline-miss run: a
four-part Dirichlet draw `(3/8, 3/8, 1/5, 1/20)`, one adjustment index
draw, then Dirichlet draws for the three nonzero rows. -/
def npListC1 : List ℚ := [3/8, 3/8, 1/5, 1/20, 4/5, 2/3, 1/3, 2/3, 1/3, 1/2, 1/2]

/-- Seed-to-stream map of the `random` module for the baseline-miss run. -/
def pySeedC1 : ℕ → ℕ → ℚ := fun _ i => pyListC1.getD i 0

/-- Seed-to-stream map of numpy for the baseline-miss run. -/
def npSeedC1 : ℕ → ℕ → ℚ := fun _ i => npListC1.getD i 0

/-- Initial global random state used by the concrete runs; a supplied seed
replaces it entirely. -/
def gZero : PyState := ⟨⟨fun _ => 0, 0⟩, ⟨fun _ => 0, 0⟩⟩

/-- Instance the generator returns on the baseline-miss run: the sampled
row totals come out as `(3, 3, 2, 0)` — the rounding-drift fix of
`_sample_row_totals` decrements an extra that is already 0 — so the last
row is all zeros and the baseline is 5, not the requested 4. -/
def instC1 : PolyInstance :=
  { delta := 4
    m := 4
    n := 2
    matrix := [[1, 2], [2, 1], [1, 1], [0, 0]]
    coefficients := [5, 5, 5, 5]
    baseline := 5 }

/-- Carrier values of the `random` module stream for the small clean run
with `delta = 1`. -/
def pyListC9 : List ℚ := [0, 0, 3/4]

/-- Carrier values of the numpy stream for the small clean run. -/
def npListC9 : List ℚ := [1/2, 1/2, 1/2]

/-- Seed-to-stream map of the `random` module for the small clean run. -/
def pySeedC9 : ℕ → ℕ → ℚ := fun _ i => pyListC9.getD i 0

/-- Seed-to-stream map of numpy for the small clean run. -/
def npSeedC9 : ℕ → ℕ → ℚ := fun _ i => npListC9.getD i 0

/-- Instance returned by the small clean run with `delta = 1`. -/
def instC9 : PolyInstance :=
  { delta := 1
    m := 1
    n := 2
    matrix := [[1, 1]]
    coefficients := [5]
    baseline := 1 }

/-- All-zero seed-to-stream map, for chooser runs without a seed. -/
def pySeedZero : ℕ → ℕ → ℚ := fun _ _ => 0

/-- Global state after `choose_m_n` has consumed its two draws from
`gZero` without re-seeding. -/
def gAfterChoose : PyState := ⟨⟨fun _ => 0, 2⟩, ⟨fun _ => 0, 0⟩⟩

/-- Shape-and-sum agreement between an input matrix and a processed
matrix: same number of rows and, row by row, same length and same sum.
This is the invariant the constraint-repair phase maintains. -/
def RowInv (M A : List (List ℤ)) : Prop :=
  A.length = M.length ∧
  ∀ i, (A.getD i []).length = (M.getD i []).length ∧
    (A.getD i []).sum = (M.getD i []).sum

/-! Helper lemmas about the random primitives. -/

theorem clamp01_nonneg (u : ℚ) : 0 ≤ clamp01 u := by
  unfold clamp01
  split
  · exact (by assumption : 0 ≤ u ∧ u < 1).1
  · exact le_refl 0

theorem clamp01_lt_one (u : ℚ) : clamp01 u < 1 := by
  unfold clamp01
  split
  · exact (by assumption : 0 ≤ u ∧ u < 1).2
  · exact zero_lt_one

theorem randint_bounds (a b : ℤ) (u : ℚ) (hab : a ≤ b) (h0 : 0 ≤ u)
    (h1 : u < 1) : a ≤ randint a b u ∧ randint a b u ≤ b := by
  unfold randint
  have hk : (0 : ℤ) < b - a + 1 := by omega
  have hkq : (0 : ℚ) < (b : ℚ) - (a : ℚ) + 1 := by
    have h2 : ((0 : ℤ) : ℚ) < ((b - a + 1 : ℤ) : ℚ) := Int.cast_lt.mpr hk
    push_cast at h2
    linarith
  constructor
  · have : (0 : ℤ) ≤ ⌊u * ((b : ℚ) - (a : ℚ) + 1)⌋ :=
      Int.floor_nonneg.mpr (mul_nonneg h0 (le_of_lt hkq))
    omega
  · have hlt : u * ((b : ℚ) - (a : ℚ) + 1) < (b : ℚ) - (a : ℚ) + 1 := by
      nlinarith
    have : ⌊u * ((b : ℚ) - (a : ℚ) + 1)⌋ < b - a + 1 := by
      apply Int.floor_lt.mpr
      push_cast
      linarith
    omega

/-! Claim C2: seeded determinism. -/

/-- C2: two calls of `generate_random_instance` with identical
`(delta, coeffRange, seed)` arguments and an explicit seed return
identical results — the incoming global random state is irrelevant,
because seeding replaces both streams before any draw. -/
theorem C2_seeded_generation_deterministic
    (pySeed npSeed : ℕ → ℕ → ℚ) (delta : ℤ) (lo hi : ℚ) (s : ℕ)
    (g1 g2 : PyState) :
    generate_random_instance pySeed npSeed delta lo hi (some s) g1 =
      generate_random_instance pySeed npSeed delta lo hi (some s) g2 := rfl

/-! Claim C1: the baseline can miss delta. -/

/-- C1: the claim `baseline = delta for every delta and every random
outcome` is false on the code: on this admissible run with `delta = 4`
(the Dirichlet proportions are `(3/8, 3/8, 1/5, 1/20)`, so the rounded
extras `(2, 2, 1, 0)` oversum and the drift fix decrements the last extra,
which is already 0, to `-1`) the returned baseline is 5. -/
theorem C1_baseline_misses_delta :
    generate_random_instance pySeedC1 npSeedC1 4 (-10) 10 (some 0) gZero =
      .ok (some instC1) ∧
    instC1.delta = 4 ∧ instC1.baseline = 5 ∧ instC1.baseline ≠ instC1.delta := by
  refine ⟨by with_unfolding_all rfl, rfl, rfl, by decide⟩

/-! Claim C3: row sums of a generated matrix can drop below 1. -/

/-- C3: the claim `every generated matrix has every row sum at least 1 and
every entry nonnegative` fails on the same admissible run as C1: the
sampled row totals come out `(3, 3, 2, 0)`, so the returned matrix has the
all-zero last row, of sum 0. -/
theorem C3_row_sum_can_be_zero :
    generate_random_instance pySeedC1 npSeedC1 4 (-10) 10 (some 0) gZero =
      .ok (some instC1) ∧
    ¬ (∀ row ∈ instC1.matrix, 1 ≤ row.sum ∧ ∀ e ∈ row, 0 ≤ e) := by
  refine ⟨by with_unfolding_all rfl, ?_⟩
  intro h
  have := (h [0, 0] (by with_unfolding_all decide)).1
  exact absurd this (by decide)

/-! Claim C6: feasibility behaviour of the row-total sampler. -/

/-- C6: `_sample_row_totals` raises its infeasibility error exactly when
the target sum is smaller than `m`, and returns `m` ones when the target
sum equals `m`. -/
theorem C6_sample_row_totals_feasibility (m : ℕ) (t : ℤ) (np : RandStream) :
    ((sample_row_totals m t np = .error .infeasibleRowTotals) ↔ t < (m : ℤ)) ∧
    (t = (m : ℤ) → sample_row_totals m t np = .ok (List.replicate m 1, np)) := by
  by_cases h : t < (m : ℤ)
  case pos =>
    constructor
    · simp [sample_row_totals, h]
    · intro he
      omega
  case neg =>
    have hne : sample_row_totals m t np ≠ .error .infeasibleRowTotals := by
      unfold sample_row_totals
      rw [if_neg h]
      dsimp only
      split
      · simp
      · split
        · simp
        · split
          · simp
          · simp
    refine ⟨⟨fun he => absurd he hne, fun hlt => absurd hlt h⟩, fun he => ?_⟩
    have h0 : t - (m : ℤ) = 0 := by omega
    unfold sample_row_totals
    rw [if_neg h, if_pos h0]

/-! Helper lemmas about the chooser and the sampler, shared by several
claims. -/

theorem next_fst_nonneg (s : RandStream) : 0 ≤ s.next.1 := clamp01_nonneg _

theorem next_fst_lt_one (s : RandStream) : s.next.1 < 1 := clamp01_lt_one _

theorem randint_pair_bounds (delta : ℤ) (hd : 0 < delta) (u1 u2 : ℚ)
    (h01 : 0 ≤ u1) (h11 : u1 < 1) (h02 : 0 ≤ u2) (h12 : u2 < 1) :
    1 ≤ randint 1 (min delta ((intSqrt delta.toNat : ℤ) + 5)) u1 ∧
    randint 1 (min delta ((intSqrt delta.toNat : ℤ) + 5)) u1 ≤
      min delta ((intSqrt delta.toNat : ℤ) + 5) ∧
    2 ≤ randint 2
      (max (min delta
        (min (randint 1 (min delta ((intSqrt delta.toNat : ℤ) + 5)) u1 + 3) 10))
        2) u2 ∧
    randint 2
      (max (min delta
        (min (randint 1 (min delta ((intSqrt delta.toNat : ℤ) + 5)) u1 + 3) 10))
        2) u2 ≤
      max (min delta
        (min (randint 1 (min delta ((intSqrt delta.toNat : ℤ) + 5)) u1 + 3) 10))
        2 ∧
    randint 2
      (max (min delta
        (min (randint 1 (min delta ((intSqrt delta.toNat : ℤ) + 5)) u1 + 3) 10))
        2) u2 ≤ 10 := by
  have hmm : (1 : ℤ) ≤ min delta ((intSqrt delta.toNat : ℤ) + 5) := by
    have hs : (0 : ℤ) ≤ (intSqrt delta.toNat : ℤ) := Int.natCast_nonneg _
    omega
  have hm := randint_bounds 1 (min delta ((intSqrt delta.toNat : ℤ) + 5))
    u1 hmm h01 h11
  have hnn : (2 : ℤ) ≤
      max (min delta
        (min (randint 1 (min delta ((intSqrt delta.toNat : ℤ) + 5)) u1 + 3) 10))
        2 := le_max_right _ _
  have hn := randint_bounds 2
    (max (min delta
      (min (randint 1 (min delta ((intSqrt delta.toNat : ℤ) + 5)) u1 + 3) 10))
      2) u2 hnn h02 h12
  refine ⟨hm.1, hm.2, hn.1, hn.2, le_trans hn.2 ?_⟩
  apply max_le
  · exact le_trans (min_le_right _ _) (min_le_right _ _)
  · norm_num

theorem choose_m_n_ok_bounds (pySeed : ℕ → ℕ → ℚ) (delta : ℤ)
    (seed : Option ℕ) (st : PyState) (res : (ℤ × ℤ) × PyState)
    (h : choose_m_n pySeed delta seed st = .ok res) :
    0 < delta ∧ 1 ≤ res.1.1 ∧
    res.1.1 ≤ min delta ((intSqrt delta.toNat : ℤ) + 5) ∧
    2 ≤ res.1.2 ∧ res.1.2 ≤ max (min delta (min (res.1.1 + 3) 10)) 2 ∧
    res.1.2 ≤ 10 := by
  unfold choose_m_n at h
  by_cases hd : delta ≤ 0
  · rw [if_pos hd] at h
    exact absurd h (by simp)
  · rw [if_neg hd] at h
    dsimp only at h
    injection h with h2
    subst h2
    dsimp only
    have hdpos : 0 < delta := lt_of_not_le hd
    exact ⟨hdpos, randint_pair_bounds delta hdpos _ _
      (next_fst_nonneg _) (next_fst_lt_one _)
      (next_fst_nonneg _) (next_fst_lt_one _)⟩

/-- C10: for positive `delta`, every successful `choose_m_n` outcome
satisfies `1 ≤ m ≤ delta` and `2 ≤ n ≤ 10` — in particular the variable
count is hard-capped at 10 no matter how large `delta` is. -/
theorem C10_chooser_hard_caps (pySeed : ℕ → ℕ → ℚ) (delta : ℤ)
    (seed : Option ℕ) (st : PyState) (res : (ℤ × ℤ) × PyState)
    (hd : 0 < delta) (h : choose_m_n pySeed delta seed st = .ok res) :
    1 ≤ res.1.1 ∧ res.1.1 ≤ delta ∧ 2 ≤ res.1.2 ∧ res.1.2 ≤ 10 := by
  obtain ⟨_, h1, h2, h3, _, h5⟩ := choose_m_n_ok_bounds pySeed delta seed st res h
  exact ⟨h1, le_trans h2 (min_le_left _ _), h3, h5⟩

/-- C10 witness: the caps hold on the concrete run
`choose_m_n pySeedZero 1 none gZero = .ok ((1, 2), gAfterChoose)`. -/
theorem C10_witness :
    (1 : ℤ) ≤ (((1 : ℤ), (2 : ℤ)), gAfterChoose).1.1 ∧
    (((1 : ℤ), (2 : ℤ)), gAfterChoose).1.1 ≤ 1 ∧
    (2 : ℤ) ≤ (((1 : ℤ), (2 : ℤ)), gAfterChoose).1.2 ∧
    (((1 : ℤ), (2 : ℤ)), gAfterChoose).1.2 ≤ 10 :=
  C10_chooser_hard_caps pySeedZero 1 none gZero ((1, 2), gAfterChoose)
    (by decide) (by with_unfolding_all rfl)

/-! Claim C5 (corrected): what the chooser actually computes. -/

/-- C5 counterexample: no `delta`, however large, and no random outcome
makes the chooser return more than 10 variables, contradicting the claim
that `n = max(2, floor(sqrt(delta) / beta))` with `beta` as small as 0.2
(which would exceed 10 for large `delta`). -/
theorem C5_counterexample :
    ¬ ∃ (pySeed : ℕ → ℕ → ℚ) (delta : ℤ) (seed : Option ℕ) (st : PyState)
      (res : (ℤ × ℤ) × PyState),
      choose_m_n pySeed delta seed st = .ok res ∧ 10 < res.1.2 := by
  rintro ⟨pS, delta, seed, st, res, h, hgt⟩
  exact absurd (choose_m_n_ok_bounds pS delta seed st res h).2.2.2.2.2
    (not_le.mpr hgt)

/-- C5 as amended: the chooser draws `m` uniformly from
`[1, min(delta, isqrt(delta) + 5)]` and `n` uniformly from
`[2, max(2, min(delta, m + 3, 10))]` — integer `randint` ranges, not
continuous `sqrt`-scale factors — so `n` never exceeds 10 for any
`delta`. -/
theorem C5_amended_chooser_ranges (pySeed : ℕ → ℕ → ℚ) (delta : ℤ)
    (seed : Option ℕ) (st : PyState) (res : (ℤ × ℤ) × PyState)
    (hd : 0 < delta) (h : choose_m_n pySeed delta seed st = .ok res) :
    1 ≤ res.1.1 ∧ res.1.1 ≤ min delta ((intSqrt delta.toNat : ℤ) + 5) ∧
    2 ≤ res.1.2 ∧ res.1.2 ≤ max (min delta (min (res.1.1 + 3) 10)) 2 ∧
    res.1.2 ≤ 10 :=
  (choose_m_n_ok_bounds pySeed delta seed st res h).2

/-- C5 witness: the amended ranges hold on the concrete run
`choose_m_n pySeedZero 1 none gZero = .ok ((1, 2), gAfterChoose)`. -/
theorem C5_witness :
    (1 : ℤ) ≤ (((1 : ℤ), (2 : ℤ)), gAfterChoose).1.1 ∧
    (((1 : ℤ), (2 : ℤ)), gAfterChoose).1.1 ≤
      min 1 ((intSqrt (1 : ℤ).toNat : ℤ) + 5) ∧
    (2 : ℤ) ≤ (((1 : ℤ), (2 : ℤ)), gAfterChoose).1.2 ∧
    (((1 : ℤ), (2 : ℤ)), gAfterChoose).1.2 ≤
      max (min 1 (min ((((1 : ℤ), (2 : ℤ)), gAfterChoose).1.1 + 3) 10)) 2 ∧
    (((1 : ℤ), (2 : ℤ)), gAfterChoose).1.2 ≤ 10 :=
  C5_amended_chooser_ranges pySeedZero 1 none gZero ((1, 2), gAfterChoose)
    (by decide) (by with_unfolding_all rfl)

/-! Helper lemmas for the exponent distributor. -/

theorem take_spec (np : RandStream) (k : ℕ) :
    ((np.take k).1.length = k) ∧ ∀ u ∈ (np.take k).1, 0 ≤ u ∧ u < 1 := by
  induction k generalizing np with
  | zero => simp [RandStream.take]
  | succ k ih =>
    refine ⟨by simp [RandStream.take, (ih _).1], ?_⟩
    intro u hu
    rw [RandStream.take] at hu
    rcases List.mem_cons.mp hu with h | h
    · subst h
      exact ⟨next_fst_nonneg _, next_fst_lt_one _⟩
    · exact (ih _).2 u h

theorem posify_pos (u : ℚ) : 0 < posify u := by
  unfold posify
  split
  · assumption
  · exact zero_lt_one

theorem npDirichlet_length (us : List ℚ) :
    (npDirichlet us).length = us.length := by
  simp [npDirichlet]

theorem npDirichlet_pos (us : List ℚ) (h : us ≠ []) :
    ∀ p ∈ npDirichlet us, 0 < p := by
  intro p hp
  unfold npDirichlet at hp
  rcases List.mem_map.mp hp with ⟨d, hd, rfl⟩
  have hsum : 0 < (us.map posify).sum := by
    apply List.sum_pos
    · intro x hx
      rcases List.mem_map.mp hx with ⟨u, _, rfl⟩
      exact posify_pos u
    · simpa using h
  rcases List.mem_map.mp hd with ⟨u, _, rfl⟩
  exact div_pos (posify_pos u) hsum

theorem npRound_nonneg (x : ℚ) (hx : 0 ≤ x) : 0 ≤ npRound x := by
  have hf : (0 : ℤ) ≤ ⌊x⌋ := Int.floor_nonneg.mpr hx
  unfold npRound
  split
  · exact hf
  · split
    · omega
    · split
      · exact hf
      · omega

theorem npRound_intCast (k : ℤ) : npRound ((k : ℤ) : ℚ) = k := by
  unfold npRound
  rw [Int.floor_intCast]
  rw [sub_self]
  norm_num

theorem npChoice_lt (n : ℕ) (u : ℚ) (h0 : 0 ≤ u) (h1 : u < 1) (hn : 0 < n) :
    npChoice n u < n := by
  unfold npChoice
  have hq : (0 : ℚ) < (n : ℚ) := by exact_mod_cast hn
  have hlt : u * (n : ℚ) < (n : ℚ) := by nlinarith
  have hfl : ⌊u * (n : ℚ)⌋ < (n : ℤ) := Int.floor_lt.mpr (by push_cast; linarith)
  omega

theorem sum_set_getD (l : List ℤ) (i : ℕ) (a : ℤ) (h : i < l.length) :
    (l.set i a).sum = l.sum - l.getD i 0 + a := by
  induction l generalizing i with
  | nil => simp at h
  | cons x xs ih =>
    cases i with
    | zero => simp [List.set]; ring
    | succ j =>
      have hj : j < xs.length := by simpa using h
      simp only [List.set, List.sum_cons, List.getD_cons_succ, ih j hj]
      ring

theorem getD_nonneg (l : List ℤ) (i : ℕ) (h : ∀ e ∈ l, 0 ≤ e) :
    0 ≤ l.getD i 0 := by
  by_cases hi : i < l.length
  · rw [List.getD_eq_getElem l 0 hi]
    exact h _ (List.getElem_mem hi)
  · rw [List.getD_eq_default l 0 (le_of_not_lt hi)]

theorem set_nonneg (l : List ℤ) (i : ℕ) (a : ℤ) (ha : 0 ≤ a)
    (h : ∀ e ∈ l, 0 ≤ e) : ∀ e ∈ l.set i a, 0 ≤ e := by
  intro e he
  rcases List.mem_or_eq_of_mem_set he with h1 | h1
  · exact h e h1
  · subst h1
    exact ha

theorem pos_filter_ne_nil (l : List ℤ) (hnn : ∀ e ∈ l, 0 ≤ e)
    (hs : 0 < l.sum) :
    (List.range l.length).filter (fun j => decide (0 < l.getD j 0)) ≠ [] := by
  intro hempty
  have hall : ∀ j ∈ List.range l.length, ¬ 0 < l.getD j 0 := by
    intro j hj
    have := List.filter_eq_nil_iff.mp hempty j hj
    simpa using this
  have hzero : l.sum = 0 := by
    apply List.sum_eq_zero
    intro x hx
    rcases List.mem_iff_getElem.mp hx with ⟨j, hjl, rfl⟩
    have h1 := hall j (List.mem_range.mpr hjl)
    rw [List.getD_eq_getElem l 0 hjl] at h1
    have h2 := hnn _ (List.getElem_mem hjl)
    omega
  omega

theorem fixup_spec (n : ℕ) (idxs : List ℕ) :
    ∀ (b : Bool) (exps : List ℤ) (np : RandStream),
    exps.length = n → (∀ e ∈ exps, 0 ≤ e) → (∀ i ∈ idxs, i < n) →
    (b = false → (idxs.length : ℤ) ≤ exps.sum) →
    (fixupExponents b n idxs exps np).1.length = n ∧
    (∀ e ∈ (fixupExponents b n idxs exps np).1, 0 ≤ e) ∧
    (fixupExponents b n idxs exps np).1.sum =
      exps.sum + (if b then (idxs.length : ℤ) else -(idxs.length : ℤ)) := by
  induction idxs with
  | nil =>
    intro b exps np hlen hnn _ _
    refine ⟨hlen, hnn, ?_⟩
    cases b <;> simp [fixupExponents]
  | cons idx rest ih =>
    intro b exps np hlen hnn hidx hneg
    have hidxlt : idx < n := hidx idx (List.mem_cons_self idx rest)
    have hidxlen : idx < exps.length := by omega
    have hrest : ∀ i ∈ rest, i < n := fun i hi => hidx i (List.mem_cons_of_mem _ hi)
    cases b with
    | true =>
      rw [fixupExponents]
      rw [if_pos rfl]
      have h1 := ih true (exps.set idx (exps.getD idx 0 + 1)) np
        (by rw [List.length_set]; exact hlen)
        (set_nonneg _ _ _ (by have := getD_nonneg exps idx hnn; omega) hnn)
        hrest (by intro hc; cases hc)
      refine ⟨h1.1, h1.2.1, ?_⟩
      rw [h1.2.2, sum_set_getD exps idx _ hidxlen]
      simp only [if_pos rfl, List.length_cons]
      push_cast
      ring
    | false =>
      rw [fixupExponents]
      rw [if_neg (by simp)]
      have hlen1 : ((rest.length + 1 : ℕ) : ℤ) ≤ exps.sum := by
        simpa using hneg rfl
      by_cases hpos : 0 < exps.getD idx 0
      · rw [if_pos hpos]
        have h1 := ih false (exps.set idx (exps.getD idx 0 - 1)) np
          (by rw [List.length_set]; exact hlen)
          (set_nonneg _ _ _ (by omega) hnn)
          hrest
          (by
            intro _
            rw [sum_set_getD exps idx _ hidxlen]
            push_cast at hlen1 ⊢
            omega)
        refine ⟨h1.1, h1.2.1, ?_⟩
        rw [h1.2.2, sum_set_getD exps idx _ hidxlen]
        simp only [Bool.false_eq_true, if_neg, List.length_cons]
        push_cast
        ring
      · rw [if_neg hpos]
        have hsum_pos : 0 < exps.sum := by push_cast at hlen1; omega
        have hpne : (List.range n).filter (fun j => decide (0 < exps.getD j 0)) ≠ [] := by
          rw [← hlen]
          exact pos_filter_ne_nil exps hnn hsum_pos
        rw [if_neg (by simpa [List.isEmpty_iff] using hpne)]
        set P := (List.range n).filter (fun j => decide (0 < exps.getD j 0))
          with hP
        have hplen : 0 < P.length := List.length_pos.mpr hpne
        set j := P.getD (npChoice P.length np.next.1) 0 with hj
        have hjmem : j ∈ P := by
          rw [hj, List.getD_eq_getElem _ 0
            (npChoice_lt _ _ (next_fst_nonneg _) (next_fst_lt_one _) hplen)]
          exact List.getElem_mem _
        have hjprop := List.mem_filter.mp (hP ▸ hjmem)
        have hjlt : j < n := List.mem_range.mp hjprop.1
        have hjpos : 0 < exps.getD j 0 := by simpa using hjprop.2
        have hjlen : j < exps.length := by omega
        have h1 := ih false (exps.set j (exps.getD j 0 - 1)) np.next.2
          (by rw [List.length_set]; exact hlen)
          (set_nonneg _ _ _ (by omega) hnn)
          hrest
          (by
            intro _
            rw [sum_set_getD exps j _ hjlen]
            push_cast at hlen1 ⊢
            omega)
        refine ⟨h1.1, h1.2.1, ?_⟩
        rw [h1.2.2, sum_set_getD exps j _ hjlen]
        simp only [Bool.false_eq_true, if_neg, List.length_cons]
        push_cast
        ring

theorem distribute_main (t : ℤ) (n : ℕ) (np : RandStream) (ht : 0 ≤ t)
    (hn : 1 ≤ n) :
    (distribute_exponents t n np).1.length = n ∧
    (∀ e ∈ (distribute_exponents t n np).1, 0 ≤ e) ∧
    (distribute_exponents t n np).1.sum = t := by
  by_cases h0 : t = 0
  · subst h0
    simp [distribute_exponents]
  · unfold distribute_exponents
    rw [if_neg h0]
    dsimp only
    have husne : (np.take n).1 ≠ [] := by
      intro hc
    -- a list of length n, n at least 1, cannot be empty
      have hl := (take_spec np n).1
      rw [hc] at hl
      simp at hl
      omega
    set E := (npDirichlet (np.take n).1).map (fun p => npRound (p * (t : ℚ)))
      with hE
    have hElen : E.length = n := by
      rw [hE]
      simp [npDirichlet_length, (take_spec np n).1]
    have hEnn : ∀ e ∈ E, 0 ≤ e := by
      intro e he
      rw [hE] at he
      rcases List.mem_map.mp he with ⟨p, hp, rfl⟩
      have hppos := npDirichlet_pos _ husne p hp
      exact npRound_nonneg _ (mul_nonneg (le_of_lt hppos) (by exact_mod_cast ht))
    by_cases hd : t - E.sum = 0
    · rw [if_pos hd]
      exact ⟨hElen, hEnn, by show E.sum = t; omega⟩
    · rw [if_neg hd]
      set I := (((np.take n).2.take (t - E.sum).natAbs).1.map (npChoice n))
        with hI
      have hIlt : ∀ i ∈ I, i < n := by
        intro i hi
        rw [hI] at hi
        rcases List.mem_map.mp hi with ⟨v, hv, rfl⟩
        have hb := (take_spec _ _).2 v hv
        exact npChoice_lt n v hb.1 hb.2 (by omega)
      have hIlen : I.length = (t - E.sum).natAbs := by
        rw [hI]
        simp [(take_spec _ _).1]
      obtain ⟨l1, l2, l3⟩ := fixup_spec n I (decide (0 < t - E.sum)) E
        ((np.take n).2.take (t - E.sum).natAbs).2 hElen hEnn hIlt
        (by
          intro hb
          have hng : ¬ 0 < t - E.sum := by simpa using hb
          rw [hIlen]
          omega)
      refine ⟨l1, l2, ?_⟩
      rw [l3, hIlen]
      by_cases hdp : 0 < t - E.sum
      · rw [decide_eq_true hdp, if_pos rfl]
        omega
      · rw [decide_eq_false hdp, if_neg (by simp)]
        omega

theorem distribute_single (t : ℤ) (np : RandStream) (ht : 0 ≤ t) :
    (distribute_exponents t 1 np).1 = [t] := by
  by_cases h0 : t = 0
  · subst h0
    simp [distribute_exponents]
  · unfold distribute_exponents
    rw [if_neg h0]
    dsimp only
    have htake : (np.take 1).1 = [np.next.1] := by
      simp [RandStream.take]
    rw [htake]
    have hdir : npDirichlet [np.next.1] = [1] := by
      unfold npDirichlet
      simp only [List.map_cons, List.map_nil, List.sum_cons, List.sum_nil,
        add_zero]
      rw [div_self (ne_of_gt (posify_pos _))]
    rw [hdir]
    simp only [List.map_cons, List.map_nil, one_mul, npRound_intCast,
      List.sum_cons, List.sum_nil, add_zero, sub_self]
    simp

/-! Claim C7: the exponent distributor. -/

/-- C7: for every nonnegative total degree and at least one variable,
`_distribute_exponents` returns a vector of the requested length whose
entries are nonnegative and sum exactly to the total degree; total degree
0 yields the zero vector and one variable yields the singleton of the
total. -/
theorem C7_distribute_exponents_spec (t : ℤ) (n : ℕ) (np : RandStream)
    (ht : 0 ≤ t) (hn : 1 ≤ n) :
    (distribute_exponents t n np).1.length = n ∧
    (distribute_exponents t n np).1.sum = t ∧
    (∀ e ∈ (distribute_exponents t n np).1, 0 ≤ e) ∧
    (t = 0 → (distribute_exponents t n np).1 = List.replicate n 0) ∧
    (n = 1 → (distribute_exponents t n np).1 = [t]) := by
  obtain ⟨l1, l2, l3⟩ := distribute_main t n np ht hn
  refine ⟨l1, l3, l2, fun h0 => ?_, fun h1 => ?_⟩
  · subst h0
    simp [distribute_exponents]
  · subst h1
    exact distribute_single t np ht

/-- C7 witness: the distributor specification at the concrete input
`total degree 3, 2 variables`, with the constant-half stream. -/
theorem C7_witness :
    (distribute_exponents 3 2 ⟨fun _ => 1/2, 0⟩).1.length = 2 ∧
    (distribute_exponents 3 2 ⟨fun _ => 1/2, 0⟩).1.sum = 3 ∧
    (∀ e ∈ (distribute_exponents 3 2 ⟨fun _ => 1/2, 0⟩).1, 0 ≤ e) ∧
    ((3 : ℤ) = 0 →
      (distribute_exponents 3 2 ⟨fun _ => 1/2, 0⟩).1 = List.replicate 2 0) ∧
    (2 = 1 → (distribute_exponents 3 2 ⟨fun _ => 1/2, 0⟩).1 = [3]) :=
  C7_distribute_exponents_spec 3 2 ⟨fun _ => 1/2, 0⟩ (by decide) (by decide)

/-! Helper lemmas for the coefficient generator. -/

theorem pyUniform_mem (lo hi u : ℚ) (h0 : 0 ≤ u) (h1 : u ≤ 1) :
    min lo hi ≤ pyUniform lo hi u ∧ pyUniform lo hi u ≤ max lo hi := by
  unfold pyUniform
  rcases le_total lo hi with h | h
  · rw [min_eq_left h, max_eq_right h]
    constructor <;> nlinarith
  · rw [min_eq_right h, max_eq_left h]
    constructor <;> nlinarith

theorem genCoeff_spec (lo hi : ℚ) (fuel : ℕ) :
    ∀ (py : RandStream) (c : ℚ) (py2 : RandStream),
    genCoeff lo hi py fuel = some (c, py2) →
    c ≠ 0 ∧ min lo hi ≤ c ∧ c ≤ max lo hi := by
  induction fuel with
  | zero =>
    intro py c py2 h
    exact absurd h (by simp [genCoeff])
  | succ fuel ih =>
    intro py c py2 h
    rw [genCoeff] at h
    by_cases hz : pyUniform lo hi py.next.1 = 0
    · rw [if_pos hz] at h
      exact ih _ _ _ h
    · rw [if_neg hz] at h
      injection h with h2
      have hc : pyUniform lo hi py.next.1 = c := congrArg Prod.fst h2
      rw [← hc]
      have hb := pyUniform_mem lo hi py.next.1 (next_fst_nonneg _)
        (le_of_lt (next_fst_lt_one _))
      exact ⟨hz, hb.1, hb.2⟩

theorem genCoeffs_spec (lo hi : ℚ) (k : ℕ) :
    ∀ (py : RandStream) (cs : List ℚ) (py2 : RandStream),
    genCoeffs lo hi py k = some (cs, py2) →
    cs.length = k ∧ ∀ c ∈ cs, c ≠ 0 ∧ min lo hi ≤ c ∧ c ≤ max lo hi := by
  induction k with
  | zero =>
    intro py cs py2 h
    rw [genCoeffs] at h
    injection h with h2
    have hcs : ([] : List ℚ) = cs := congrArg Prod.fst h2
    rw [← hcs]
    simp
  | succ k ih =>
    intro py cs py2 h
    rw [genCoeffs] at h
    cases hg : genCoeff lo hi py 100 with
    | none =>
      rw [hg] at h
      exact absurd h (by simp)
    | some cp =>
      rw [hg] at h
      dsimp only at h
      cases hr : genCoeffs lo hi cp.2 k with
      | none =>
        rw [hr] at h
        exact absurd h (by simp)
      | some rest =>
        rw [hr] at h
        dsimp only at h
        injection h with h2
        have hcs : cp.1 :: rest.1 = cs := congrArg Prod.fst h2
        obtain ⟨hl, hm⟩ := ih cp.2 rest.1 rest.2 (by rw [hr])
        have h1 := genCoeff_spec lo hi 100 py cp.1 cp.2 (by rw [hg])
        rw [← hcs]
        refine ⟨by simp [hl], ?_⟩
        intro cc hcc
        rcases List.mem_cons.mp hcc with hx | hx
        · rw [hx]
          exact h1
        · exact hm cc hx

/-! Claim C9: properties of the returned coefficient list. -/

/-- C9: every successful generation call returns exactly `m` coefficients,
all nonzero and all between `lo` and `hi` (in either order of the
bounds). -/
theorem C9_coefficients_spec (pySeed npSeed : ℕ → ℕ → ℚ) (delta : ℤ)
    (lo hi : ℚ) (seed : Option ℕ) (g : PyState) (inst : PolyInstance)
    (h : generate_random_instance pySeed npSeed delta lo hi seed g =
      .ok (some inst)) :
    inst.coefficients.length = inst.m.toNat ∧
    ∀ c ∈ inst.coefficients, c ≠ 0 ∧ min lo hi ≤ c ∧ c ≤ max lo hi := by
  unfold generate_random_instance at h
  by_cases hd : delta ≤ 0
  · rw [if_pos hd] at h
    exact absurd h (by simp)
  · rw [if_neg hd] at h
    by_cases hr : 0 ≤ lo ∧ hi ≤ 0
    · rw [if_pos hr] at h
      exact absurd h (by simp)
    · rw [if_neg hr] at h
      dsimp only at h
      cases hss : seedStreams pySeed npSeed seed g with
      | error e =>
        rw [hss] at h
        exact absurd h (by simp)
      | ok g1 =>
        rw [hss] at h
        dsimp only at h
        cases hc : choose_m_n pySeed delta seed g1 with
        | error e =>
          rw [hc] at h
          exact absurd h (by simp)
        | ok mng =>
          rw [hc] at h
          dsimp only at h
          cases hs : sample_row_totals mng.1.1.toNat (delta + mng.1.1)
              mng.2.np with
          | error e =>
            rw [hs] at h
            exact absurd h (by simp)
          | ok rtnp =>
            rw [hs] at h
            dsimp only at h
            cases hg2 : genCoeffs lo hi mng.2.py mng.1.1.toNat with
            | none =>
              rw [hg2] at h
              exact absurd h (by simp)
            | some cs =>
              rw [hg2] at h
              dsimp only at h
              injection h with h2
              injection h2 with h3
              rw [← h3]
              dsimp only
              obtain ⟨hl, hm⟩ := genCoeffs_spec lo hi mng.1.1.toNat mng.2.py
                cs.1 cs.2 (by rw [hg2])
              exact ⟨by rw [hl], hm⟩

/-- C9 witness: the coefficient specification on the concrete seeded run
with `delta = 1` and range `(-10, 10)`, which returns `instC9`. -/
theorem C9_witness :
    instC9.coefficients.length = instC9.m.toNat ∧
    ∀ c ∈ instC9.coefficients, c ≠ 0 ∧
      min (-10 : ℚ) 10 ≤ c ∧ c ≤ max (-10 : ℚ) 10 :=
  C9_coefficients_spec pySeedC9 npSeedC9 1 (-10) 10 (some 0) gZero instC9
    (by with_unfolding_all rfl)

/-! Helper lemmas for the constraint-repair phase. -/

theorem getD_set_ne {α : Type} (l : List α) (p q : ℕ) (a d : α)
    (h : p ≠ q) : (l.set p a).getD q d = l.getD q d := by
  by_cases hq : q < l.length
  · rw [List.getD_eq_getElem _ d (by simpa using hq),
      List.getD_eq_getElem _ d hq]
    exact List.getElem_set_ne h _
  · rw [List.getD_eq_default _ d (by simpa using le_of_not_lt hq),
      List.getD_eq_default _ d (le_of_not_lt hq)]

theorem getD_set_self {α : Type} (l : List α) (i : ℕ) (a d : α)
    (h : i < l.length) : (l.set i a).getD i d = a := by
  rw [List.getD_eq_getElem _ d (by simpa using h)]
  simp

theorem lt_length_of_getD_pos (l : List ℤ) (p : ℕ) (h : 0 < l.getD p 0) :
    p < l.length := by
  by_contra hc
  rw [List.getD_eq_default _ _ (le_of_not_lt hc)] at h
  omega

theorem sum_shift (row : List ℤ) (p q : ℕ) (a b : ℤ) (hpq : p ≠ q)
    (hp : p < row.length) (hq : q < row.length) :
    ((row.set p a).set q b).sum = row.sum - row.getD p 0 + a - row.getD q 0 + b := by
  rw [sum_set_getD _ q _ (by simpa using hq), sum_set_getD _ p _ hp,
    getD_set_ne _ p q _ _ hpq]

theorem move_unit_length (row : List ℤ) (p q : ℕ) :
    (_move_unit row p q).length = row.length := by
  unfold _move_unit
  split
  · rfl
  · split
    · rfl
    · simp

theorem move_unit_sum (row : List ℤ) (p q : ℕ) (hq : q < row.length) :
    (_move_unit row p q).sum = row.sum := by
  unfold _move_unit
  split
  · rfl
  · split
    · rfl
    · rename_i hpq hpos
      have hp : p < row.length := lt_length_of_getD_pos row p (by omega)
      rw [sum_shift row p q _ _ hpq hp hq]
      ring

theorem shift_unit_length (row : List ℤ) (p j : ℕ) :
    (shiftUnit row p j).length = row.length := by
  simp [shiftUnit]

theorem shift_unit_sum (row : List ℤ) (p j : ℕ) (hpj : p ≠ j)
    (hp : p < row.length) (hj : j < row.length) :
    (shiftUnit row p j).sum = row.sum := by
  unfold shiftUnit
  rw [sum_shift row p j _ _ hpj hp hj]
  ring

theorem rowInv_refl (M : List (List ℤ)) : RowInv M M :=
  ⟨rfl, fun _ => ⟨rfl, rfl⟩⟩

theorem rowInv_set (M A : List (List ℤ)) (h : RowInv M A) (i : ℕ)
    (r : List ℤ) (hl : r.length = (A.getD i []).length)
    (hs : r.sum = (A.getD i []).sum) : RowInv M (A.set i r) := by
  refine ⟨by rw [List.length_set]; exact h.1, fun k => ?_⟩
  by_cases hk : k = i
  · subst hk
    by_cases hik : k < A.length
    · rw [getD_set_self _ _ _ _ hik]
      exact ⟨hl.trans (h.2 k).1, hs.trans (h.2 k).2⟩
    · rw [List.set_eq_of_length_le (le_of_not_lt hik)]
      exact h.2 k
  · rw [getD_set_ne _ i k _ _ (fun hx => hk hx.symm)]
    exact h.2 k

theorem rowInv_row_length (M A : List (List ℤ)) (n : ℕ)
    (hM : ∀ row ∈ M, row.length = n) (h : RowInv M A) (i : ℕ)
    (hi : i < A.length) : (A.getD i []).length = n := by
  rw [(h.2 i).1]
  have hiM : i < M.length := by rw [← h.1]; exact hi
  rw [List.getD_eq_getElem _ _ hiM]
  exact hM _ (List.getElem_mem hiM)

theorem foldl_min_lt (c : List ℤ) (n : ℕ) :
    ∀ (js : List ℕ) (b : ℕ), b < n → (∀ j ∈ js, j < n) →
    (js.foldl (fun best j => if c.getD j 0 < c.getD best 0 then j else best) b)
      < n := by
  intro js
  induction js with
  | nil =>
    intro b hb _
    exact hb
  | cons j js ih =>
    intro b hb hall
    apply ih
    · dsimp only
      split
      · exact hall j (List.mem_cons_self _ _)
      · exact hb
    · exact fun x hx => hall x (List.mem_cons_of_mem _ hx)

theorem argmin_lt (l : List ℤ) (h : 0 < l.length) : argmin l < l.length := by
  unfold argmin
  exact foldl_min_lt l l.length _ 0 h (fun j hj => List.mem_range.mp hj)

theorem mem_insertDescBy (key : ℕ → ℤ) (x a : ℕ) :
    ∀ (l : List ℕ), x ∈ insertDescBy key a l → x = a ∨ x ∈ l := by
  intro l
  induction l with
  | nil =>
    intro hx
    simpa [insertDescBy] using hx
  | cons y ys ih =>
    intro hx
    unfold insertDescBy at hx
    split at hx
    · rcases List.mem_cons.mp hx with h | h
      · exact Or.inl h
      · exact Or.inr h
    · rcases List.mem_cons.mp hx with h | h
      · exact Or.inr (h ▸ List.mem_cons_self _ _)
      · rcases ih h with h2 | h2
        · exact Or.inl h2
        · exact Or.inr (List.mem_cons_of_mem _ h2)

theorem mem_sortDescBy (key : ℕ → ℤ) (x : ℕ) :
    ∀ (l : List ℕ), x ∈ sortDescBy key l → x ∈ l := by
  intro l
  induction l with
  | nil =>
    intro hx
    simpa [sortDescBy] using hx
  | cons y ys ih =>
    intro hx
    unfold sortDescBy at hx
    rcases mem_insertDescBy key x y _ hx with h | h
    · exact h ▸ List.mem_cons_self _ _
    · exact List.mem_cons_of_mem _ (ih h)

theorem donorsOf_mem (row : List ℤ) (q p : ℕ) (h : p ∈ donorsOf row q) :
    0 < row.getD p 0 ∧ p ≠ q ∧ p < row.length := by
  unfold donorsOf at h
  have h2 := List.mem_filter.mp h
  have h3 : 0 < row.getD p 0 ∧ p ≠ q := by simpa using h2.2
  exact ⟨h3.1, h3.2, List.mem_range.mp h2.1⟩

theorem zeroColsOf_lt (cols : List ℤ) (j : ℕ) (h : j ∈ zeroColsOf cols) :
    j < cols.length := by
  unfold zeroColsOf at h
  exact List.mem_range.mp (List.mem_filter.mp h).1

theorem dupAttempts_q_lt (row : List ℤ) (seen : List (List ℤ))
    (cols : List ℤ) (zc : List ℕ) (n : ℕ) (hcols : cols.length = n)
    (hzc : ∀ j ∈ zc, j < n) (hn : 0 < n) :
    ∀ (fuel t : ℕ) (pq : ℕ × ℕ),
    dupAttempts row seen cols zc t fuel = some pq → pq.2 < n := by
  intro fuel
  induction fuel with
  | zero =>
    intro t pq h
    exact absurd h (by simp [dupAttempts])
  | succ fuel ih =>
    intro t pq h
    rw [dupAttempts] at h
    set q := (if zc.isEmpty then argmin cols else zc.getD (t % zc.length) 0)
      with hqdef
    have hq : q < n := by
      rw [hqdef]
      split
      · rw [← hcols]
        apply argmin_lt
        omega
      · rename_i hne
        have hzcne : zc ≠ [] := by simpa [List.isEmpty_iff] using hne
        have hlen : 0 < zc.length := List.length_pos.mpr hzcne
        apply hzc
        rw [List.getD_eq_getElem _ 0 (Nat.mod_lt _ hlen)]
        exact List.getElem_mem _
    rcases hdon : donorsOf row q with _ | ⟨p, rest⟩
    · rw [hdon] at h
      exact absurd h (by simp)
    · rw [hdon] at h
      dsimp only at h
      split at h
      · injection h with h2
        rw [← h2]
        exact hq
      · exact ih _ _ h

theorem dupExhaustive_q_lt (row : List ℤ) (seen : List (List ℤ)) (n : ℕ)
    (pq : ℕ × ℕ) (h : dupExhaustive row seen n = some pq) : pq.2 < n := by
  unfold dupExhaustive at h
  obtain ⟨p, hp, hinner⟩ := List.exists_of_findSome?_eq_some h
  split at hinner
  · exact absurd hinner (by simp)
  · obtain ⟨q, hqmem, hbody⟩ := List.exists_of_findSome?_eq_some hinner
    split at hbody
    · exact absurd hbody (by simp)
    · split at hbody
      · injection hbody with h2
        rw [← h2]
        exact List.mem_range.mp hqmem
      · exact absurd hbody (by simp)

theorem colSums_length (A : List (List ℤ)) (n : ℕ) :
    (colSumsOf A n).length = n := by
  simp [colSumsOf]

theorem zeroColFirst_some (matrix seen : List (List ℤ)) (j : ℕ) :
    ∀ (is : List ℕ) (ipc : ℕ × ℕ × List ℤ),
    zeroColFirst matrix seen j is = some ipc →
    ipc.1 ∈ is ∧ 0 < (matrix.getD ipc.1 []).getD ipc.2.1 0 ∧ ipc.2.1 ≠ j ∧
    ipc.2.1 < (matrix.getD ipc.1 []).length ∧
    ipc.2.2 = shiftUnit (matrix.getD ipc.1 []) ipc.2.1 j := by
  intro is
  induction is with
  | nil =>
    intro ipc h
    exact absurd h (by simp [zeroColFirst])
  | cons i rest ih =>
    intro ipc h
    rw [zeroColFirst] at h
    split at h
    case h_1 pc hf =>
      injection h with h2
      obtain ⟨p, hpmem, hbody⟩ := List.exists_of_findSome?_eq_some hf
      split at hbody
      · injection hbody with h3
        have hpd := mem_sortDescBy _ _ _ hpmem
        obtain ⟨hpos, hneq, hlt⟩ := donorsOf_mem _ _ _ hpd
        rw [← h2, ← h3]
        exact ⟨List.mem_cons_self _ _, hpos, hneq, hlt, rfl⟩
      · exact absurd hbody (by simp)
    case h_2 hf =>
      obtain ⟨h1, hrest⟩ := ih ipc h
      exact ⟨List.mem_cons_of_mem _ h1, hrest⟩

theorem breakDupRow_inv (M : List (List ℤ)) (n : ℕ)
    (hM : ∀ row ∈ M, row.length = n) (hn : 0 < n) (st : RepairState) (i : ℕ)
    (hInv : RowInv M st.matrix) (hcols : st.cols.length = n)
    (hi : i < st.matrix.length) :
    RowInv M (breakDupRow n st i).matrix ∧
    (breakDupRow n st i).cols.length = n := by
  unfold breakDupRow
  dsimp only
  by_cases hcnt : seenCount st.seen (st.matrix.getD i []) ≤ 1
  · rw [if_pos hcnt]
    exact ⟨hInv, hcols⟩
  · rw [if_neg hcnt]
    have hrlen : (st.matrix.getD i []).length = n :=
      rowInv_row_length M st.matrix n hM hInv i hi
    cases hda : dupAttempts (st.matrix.getD i []) st.seen st.cols
        (zeroColsOf st.cols) 0 100 with
    | some pq =>
      have hq : pq.2 < n := dupAttempts_q_lt _ _ _ _ n hcols
        (fun j hj => hcols ▸ zeroColsOf_lt st.cols j hj) hn 100 0 pq hda
      dsimp only [applyMove]
      constructor
      · exact rowInv_set M st.matrix hInv i _ (move_unit_length _ _ _)
          (move_unit_sum _ _ _ (by rw [hrlen]; exact hq))
      · simp [List.length_set, hcols]
    | none =>
      cases he : dupExhaustive (st.matrix.getD i []) st.seen n with
      | some pq =>
        have hq : pq.2 < n := dupExhaustive_q_lt _ _ _ _ he
        dsimp only [applyMove]
        constructor
        · exact rowInv_set M st.matrix hInv i _ (move_unit_length _ _ _)
            (move_unit_sum _ _ _ (by rw [hrlen]; exact hq))
        · simp [List.length_set, hcols]
      | none => exact ⟨hInv, hcols⟩

theorem zeroColSecond_inv (M : List (List ℤ)) (n : ℕ)
    (hM : ∀ row ∈ M, row.length = n) (j : ℕ) (hj : j < n) :
    ∀ (is : List ℕ) (st : RepairState), RowInv M st.matrix →
    st.cols.length = n → (∀ i ∈ is, i < st.matrix.length) →
    RowInv M (zeroColSecond n j st is).matrix ∧
    (zeroColSecond n j st is).cols.length = n := by
  intro is
  induction is with
  | nil =>
    intro st hInv hcols _
    exact ⟨hInv, hcols⟩
  | cons i rest ih =>
    intro st hInv hcols hmem
    rw [zeroColSecond]
    have hi : i < st.matrix.length := hmem i (List.mem_cons_self _ _)
    have hrlen : (st.matrix.getD i []).length = n :=
      rowInv_row_length M st.matrix n hM hInv i hi
    cases hdon : donorsOf (st.matrix.getD i []) j with
    | nil =>
      dsimp only
      exact ih st hInv hcols (fun x hx => hmem x (List.mem_cons_of_mem _ hx))
    | cons p prest =>
      obtain ⟨hppos, hpneq, hplt⟩ := donorsOf_mem _ _ p
        (by rw [hdon]; exact List.mem_cons_self _ _)
      have hInv1 : RowInv M
          (st.matrix.set i (shiftUnit (st.matrix.getD i []) p j)) :=
        rowInv_set M st.matrix hInv i _ (shift_unit_length _ _ _)
          (shift_unit_sum _ _ _ hpneq hplt (by rw [hrlen]; exact hj))
      have hcols1 : ((st.cols.set p (st.cols.getD p 0 - 1)).set j
          (st.cols.getD j 0 + 1)).length = n := by
        simp [List.length_set, hcols]
      have hr1len : (shiftUnit (st.matrix.getD i []) p j).length = n := by
        rw [shift_unit_length, hrlen]
      dsimp only
      split
      · split
        · exact ⟨hInv1, hcols1⟩
        · rename_i p2 p2rest hdon2
          cases hq2c : (List.range n).filter (fun q => q ≠ j) with
          | nil =>
            dsimp only
            exact ⟨hInv1, hcols1⟩
          | cons q0 qrest =>
            dsimp only
            have hq0mem : q0 ∈ (List.range n).filter (fun q => q ≠ j) := by
              rw [hq2c]
              exact List.mem_cons_self _ _
            have hq0 : q0 < n := List.mem_range.mp (List.mem_filter.mp hq0mem).1
            have hall : ∀ q ∈ q0 :: qrest, q < n := by
              intro q hq
              have hqm : q ∈ (List.range n).filter (fun x => x ≠ j) := by
                rw [hq2c]
                exact hq
              exact List.mem_range.mp (List.mem_filter.mp hqm).1
            have hq2lt := foldl_min_lt
              ((st.cols.set p (st.cols.getD p 0 - 1)).set j
                (st.cols.getD j 0 + 1)) n (q0 :: qrest) q0 hq0 hall
            split
            · dsimp only
              constructor
              · apply rowInv_set M _ hInv1 i
                · rw [move_unit_length, getD_set_self _ _ _ _ hi]
                · rw [move_unit_sum _ _ _ (by rw [hr1len]; exact hq2lt),
                    getD_set_self _ _ _ _ hi]
              · simp [List.length_set, hcols]
            · exact ⟨hInv1, hcols1⟩
      · exact ⟨hInv1, hcols1⟩

theorem fixZeroCol_inv (M : List (List ℤ)) (n : ℕ)
    (hM : ∀ row ∈ M, row.length = n) (st : RepairState) (j : ℕ)
    (hInv : RowInv M st.matrix) (hcols : st.cols.length = n) (hj : j < n) :
    RowInv M (fixZeroCol n st j).matrix ∧
    (fixZeroCol n st j).cols.length = n := by
  unfold fixZeroCol
  cases hzf : zeroColFirst st.matrix st.seen j (List.range st.matrix.length) with
  | some ipc =>
    obtain ⟨himem, hppos, hpneq, hplt, hcand⟩ :=
      zeroColFirst_some _ _ _ _ _ hzf
    have hilt : ipc.1 < st.matrix.length := List.mem_range.mp himem
    have hrlen : (st.matrix.getD ipc.1 []).length = n :=
      rowInv_row_length M st.matrix n hM hInv ipc.1 hilt
    dsimp only [applyMove]
    constructor
    · apply rowInv_set M st.matrix hInv ipc.1
      · rw [hcand, shift_unit_length]
      · rw [hcand]
        exact shift_unit_sum _ _ _ hpneq hplt (by rw [hrlen]; exact hj)
    · simp [List.length_set, hcols]
  | none =>
    exact zeroColSecond_inv M n hM j hj (List.range st.matrix.length) st hInv
      hcols (fun i hi => List.mem_range.mp hi)

theorem foldl_breakDup_inv (M : List (List ℤ)) (n : ℕ)
    (hM : ∀ row ∈ M, row.length = n) (hn : 0 < n) :
    ∀ (is : List ℕ) (st : RepairState), RowInv M st.matrix →
    st.cols.length = n → (∀ i ∈ is, i < M.length) →
    RowInv M (is.foldl (fun st i => breakDupRow n st i) st).matrix ∧
    (is.foldl (fun st i => breakDupRow n st i) st).cols.length = n := by
  intro is
  induction is with
  | nil =>
    intro st hInv hcols _
    exact ⟨hInv, hcols⟩
  | cons i rest ih =>
    intro st hInv hcols hmem
    have hi : i < st.matrix.length := by
      rw [hInv.1]
      exact hmem i (List.mem_cons_self _ _)
    have hstep := breakDupRow_inv M n hM hn st i hInv hcols hi
    exact ih (breakDupRow n st i) hstep.1 hstep.2
      (fun x hx => hmem x (List.mem_cons_of_mem _ hx))

theorem foldl_fixZero_inv (M : List (List ℤ)) (n : ℕ)
    (hM : ∀ row ∈ M, row.length = n) :
    ∀ (js : List ℕ) (st : RepairState), RowInv M st.matrix →
    st.cols.length = n → (∀ j ∈ js, j < n) →
    RowInv M (js.foldl (fun st j => fixZeroCol n st j) st).matrix ∧
    (js.foldl (fun st j => fixZeroCol n st j) st).cols.length = n := by
  intro js
  induction js with
  | nil =>
    intro st hInv hcols _
    exact ⟨hInv, hcols⟩
  | cons j rest ih =>
    intro st hInv hcols hmem
    have hstep := fixZeroCol_inv M n hM st j hInv hcols
      (hmem j (List.mem_cons_self _ _))
    exact ih (fixZeroCol n st j) hstep.1 hstep.2
      (fun x hx => hmem x (List.mem_cons_of_mem _ hx))

theorem enforce_rowInv (M : List (List ℤ)) (n : ℕ)
    (hM : ∀ row ∈ M, row.length = n) :
    RowInv M (enforce_matrix_constraints M) := by
  unfold enforce_matrix_constraints
  by_cases hc : M.length = 0 ∨ (M.headD []).length = 0
  · rw [if_pos hc]
    exact rowInv_refl M
  · rw [if_neg hc]
    push_neg at hc
    have hMne : M ≠ [] := by
      intro h
      rw [h] at hc
      exact hc.1 rfl
    have hhead : (M.headD []).length = n := by
      cases M with
      | nil => exact absurd rfl hMne
      | cons a as => exact hM a (List.mem_cons_self _ _)
    have hn : 0 < n := by
      rw [← hhead]
      omega
    rw [hhead]
    dsimp only
    have h1 := foldl_breakDup_inv M n hM hn (List.range M.length)
      ⟨M, M, colSumsOf M n⟩ (rowInv_refl M) (colSums_length M n)
      (fun i hi => List.mem_range.mp hi)
    have h2 := foldl_fixZero_inv M n hM
      (zeroColsOf (colSumsOf ((List.range M.length).foldl
        (fun st i => breakDupRow n st i) ⟨M, M, colSumsOf M n⟩).matrix n))
      ⟨((List.range M.length).foldl (fun st i => breakDupRow n st i)
          ⟨M, M, colSumsOf M n⟩).matrix,
        ((List.range M.length).foldl (fun st i => breakDupRow n st i)
          ⟨M, M, colSumsOf M n⟩).matrix,
        colSumsOf ((List.range M.length).foldl (fun st i => breakDupRow n st i)
          ⟨M, M, colSumsOf M n⟩).matrix n⟩
      h1.1 (colSums_length _ n)
      (fun j hj => by
        have hz := zeroColsOf_lt _ _ hj
        rw [colSums_length] at hz
        exact hz)
    exact h2.1

theorem baseline_eq_of_rowsums :
    ∀ (A B : List (List ℤ)), A.length = B.length →
    (∀ i, (A.getD i []).sum = (B.getD i []).sum) →
    calculate_baseline A = calculate_baseline B := by
  intro A
  induction A with
  | nil =>
    intro B hlen _
    have : B = [] := List.length_eq_zero.mp hlen.symm
    rw [this]
  | cons a A2 ih =>
    intro B hlen hsums
    cases B with
    | nil => simp at hlen
    | cons b B2 =>
      unfold calculate_baseline
      simp only [List.map_cons, List.sum_cons]
      have hhead : a.sum = b.sum := by
        have := hsums 0
        simpa using this
      have htail : calculate_baseline A2 = calculate_baseline B2 := by
        apply ih
        · simpa using hlen
        · intro i
          have := hsums (i + 1)
          simpa using this
      unfold calculate_baseline at htail
      rw [hhead, htail]

/-! Claim C4: the repair phase preserves row sums and the baseline. -/

/-- C4: for every rectangular integer matrix with nonnegative entries,
`_enforce_matrix_constraints` returns a matrix with the same number of
rows in which every row has the same sum as the corresponding input row;
consequently the baseline is unchanged by repair.  (Every accepted move in
both repair passes is a single-unit transfer inside one row.) -/
theorem C4_repair_preserves_row_sums (M : List (List ℤ)) (n : ℕ)
    (hrect : ∀ row ∈ M, row.length = n)
    (hpos : ∀ row ∈ M, ∀ e ∈ row, 0 ≤ e) :
    (enforce_matrix_constraints M).length = M.length ∧
    (∀ i, ((enforce_matrix_constraints M).getD i []).sum =
      (M.getD i []).sum) ∧
    calculate_baseline (enforce_matrix_constraints M) =
      calculate_baseline M := by
  have hInv := enforce_rowInv M n hrect
  exact ⟨hInv.1, fun i => (hInv.2 i).2,
    baseline_eq_of_rowsums _ _ hInv.1 (fun i => (hInv.2 i).2)⟩

/-- C4 witness: row sums and baseline are preserved on the concrete
duplicate-row matrix `[[2,1],[2,1]]`. -/
theorem C4_witness :
    (enforce_matrix_constraints [[2, 1], [2, 1]]).length =
      ([[2, 1], [2, 1]] : List (List ℤ)).length ∧
    (∀ i, ((enforce_matrix_constraints [[2, 1], [2, 1]]).getD i []).sum =
      (([[2, 1], [2, 1]] : List (List ℤ)).getD i []).sum) ∧
    calculate_baseline (enforce_matrix_constraints [[2, 1], [2, 1]]) =
      calculate_baseline [[2, 1], [2, 1]] :=
  C4_repair_preserves_row_sums [[2, 1], [2, 1]] 2 (by decide) (by decide)

end PolyGen
